import Mathlib

/-!
Verification of the statement splitter, variable extractor, variable index,
dependency tracer, shadow-file manager and taint remediator of `perl_clean.py`,
via a shallow embedding of the relevant Python functions into Lean.

Python strings are modelled as `List Char`; Python `dict`s (which preserve
insertion order) are modelled as association lists; Python exceptions
(`KeyError`, `RecursionError`, `AssertionError`, ...) are modelled with
`Except`/`Option` results; Python's unbounded recursion is modelled with an
explicit fuel parameter, where exhausting every fuel corresponds to a
`RecursionError` / non-termination.
-/

/-- The single-quote character (spelled `Char.ofNat 39` to keep the file free
of quote-escape noise). -/
def squote : Char := Char.ofNat 39

/-!
## `find_split_idx` (perl_clean.py lines 13-47)

The Python function scans the line left to right keeping two booleans
`in_quotes` and `escaped`; `in_quotes` is toggled on EVERY quote character
(the code does not consult `escaped` when toggling, even though its own
comment says it checks for unescaped quotes), `escaped` is toggled by a backslash, and
after the split-char test `escaped` is cleared when the current character is
not a backslash.  It returns the index of the first occurrence of
`split_char` with both booleans false, or `len(perl_line)` if none exists.
The embedding returns the index relative to the start of the scanned list
(0 for a hit on the first character), which coincides with Python's absolute
index.  The two `assert`s of the Python code (the split character is not a
quote and not a backslash) are modelled as hypotheses of the theorems that
need them. -/
/-- Update of `in_quotes` by one character: toggled on every single or
double quote (Python lines 34-35; note the code does not consult `escaped`
here). -/
def qtoggle (ch : Char) (q : Bool) : Bool := if ch = squote || ch = '"' then !q else q

/-- Value of `escaped` at the split-char test: toggled by a backslash
(Python lines 37-38). -/
def etoggle (ch : Char) (e : Bool) : Bool := if ch = '\\' then !e else e

/-- Value of `escaped` carried to the next iteration: line 44-45 clears
`escaped` after the test whenever the current character is not a backslash. -/
def enext (ch : Char) (e : Bool) : Bool := if ch = '\\' then etoggle ch e else false

def findSplitIdxAux (split_char : Char) : List Char → Bool → Bool → Nat
  | [], _, _ => 0
  | ch :: rest, q, e =>
    if ch = split_char && !(qtoggle ch q) && !(etoggle ch e) then 0
    else findSplitIdxAux split_char rest (qtoggle ch q) (enext ch e) + 1

def find_split_idx (perl_line : List Char) (split_char : Char) : Nat :=
  findSplitIdxAux split_char perl_line false false

/-- The `(in_quotes, escaped)` state of the scanner after consuming a list of
characters, starting from a given state.  This is exactly the state update
performed by `find_split_idx` (which does not depend on the split character),
with the split-char test stripped out. -/
def scanSt : List Char → Bool × Bool → Bool × Bool
  | [], st => st
  | ch :: rest, st => scanSt rest (qtoggle ch st.1, enext ch st.2)

theorem fsAux_le (c : Char) : ∀ (s : List Char) (q e : Bool),
    findSplitIdxAux c s q e ≤ s.length := by
  intro s
  induction s with
  | nil => intro q e; simp [findSplitIdxAux]
  | cons ch rest ih =>
    intro q e
    simp only [findSplitIdxAux]
    split
    · simp
    · simpa using ih _ _

/-- Scanning a prefix that stops at or before the returned split index finds
no split character: the scanner returns the length of the prefix. -/
theorem fsAux_take (c : Char) : ∀ (s : List Char) (q e : Bool) (m : Nat),
    m ≤ findSplitIdxAux c s q e →
    findSplitIdxAux c (s.take m) q e = (s.take m).length := by
  intro s
  induction s with
  | nil => intro q e m _; simp [findSplitIdxAux]
  | cons ch rest ih =>
    intro q e m hm
    cases m with
    | zero => simp [findSplitIdxAux]
    | succ m' =>
      rw [List.take_succ_cons]
      simp only [findSplitIdxAux] at hm ⊢
      split at hm
      · omega
      · next hfire =>
        rw [if_neg hfire]
        have := ih (qtoggle ch q) (enext ch e) m' (by omega)
        simp only [List.length_cons]
        omega

theorem scanSt_append : ∀ (u v : List Char) (st : Bool × Bool),
    scanSt (u ++ v) st = scanSt v (scanSt u st) := by
  intro u
  induction u with
  | nil => intro v st; rfl
  | cons ch rest ih =>
    intro v st
    simp only [List.cons_append, scanSt]
    exact ih v _

/-- If the scanner finds no split character in `u`, scanning `u ++ v` is
scanning `v` from the state reached after `u`. -/
theorem fsAux_append_eq (c : Char) : ∀ (u v : List Char) (q e : Bool),
    findSplitIdxAux c u q e = u.length →
    findSplitIdxAux c (u ++ v) q e
      = u.length + findSplitIdxAux c v (scanSt u (q, e)).1 (scanSt u (q, e)).2 := by
  intro u
  induction u with
  | nil => intro v q e _; simp [scanSt]
  | cons ch rest ih =>
    intro v q e h
    by_cases hfire : (ch = c && !(qtoggle ch q) && !(etoggle ch e)) = true
    · rw [findSplitIdxAux, if_pos hfire] at h
      simp at h
    · rw [findSplitIdxAux, if_neg hfire, List.length_cons] at h
      rw [List.cons_append, findSplitIdxAux, if_neg hfire]
      have hst : scanSt (ch :: rest) (q, e) = scanSt rest (qtoggle ch q, enext ch e) := rfl
      rw [hst, ih v (qtoggle ch q) (enext ch e) (by omega), List.length_cons]
      omega

/-- If the scanner fires strictly inside `s`, then `s` decomposes as
`u ++ c :: v` where `u` is the scanned prefix and the state reached at the
firing character is `(false, false)` — provided the split character is
neither a quote nor a backslash (the Python preconditions). -/
theorem fsAux_fire_decomp (c : Char) (hq1 : c ≠ squote) (hq2 : c ≠ '"')
    (hb : c ≠ '\\') : ∀ (s : List Char) (q e : Bool),
    findSplitIdxAux c s q e < s.length →
    ∃ u v, s = u ++ c :: v ∧ u.length = findSplitIdxAux c s q e ∧
      scanSt u (q, e) = (false, false) := by
  have hqt : ∀ q, qtoggle c q = q := by intro q; simp [qtoggle, hq1, hq2]
  have het : ∀ e, etoggle c e = e := by intro e; simp [etoggle, hb]
  intro s
  induction s with
  | nil => intro q e h; simp [findSplitIdxAux] at h
  | cons ch rest ih =>
    intro q e h
    by_cases hfire : (ch = c && !(qtoggle ch q) && !(etoggle ch e)) = true
    · have h0 : findSplitIdxAux c (ch :: rest) q e = 0 := by
        rw [findSplitIdxAux, if_pos hfire]
      simp only [Bool.and_eq_true, Bool.not_eq_true', decide_eq_true_eq] at hfire
      obtain ⟨⟨hc, hqv⟩, hev⟩ := hfire
      rw [hc, hqt] at hqv
      rw [hc, het] at hev
      refine ⟨[], rest, by rw [hc]; rfl, by rw [h0]; rfl, by rw [hqv, hev]; rfl⟩
    · have h1 : findSplitIdxAux c (ch :: rest) q e
          = findSplitIdxAux c rest (qtoggle ch q) (enext ch e) + 1 := by
        rw [findSplitIdxAux, if_neg hfire]
      rw [h1] at h
      rw [List.length_cons] at h
      obtain ⟨u, v, hsv, hlen, hst⟩ := ih (qtoggle ch q) (enext ch e) (by omega)
      refine ⟨ch :: u, v, by rw [hsv, List.cons_append], ?_, ?_⟩
      · rw [h1, List.length_cons, hlen]
      · simp only [scanSt]
        exact hst

/-!
## `filter_comments` (perl_clean.py lines 50-58)

Returns `perl_line[0:find_split_idx(perl_line, "#")]`.
-/
def filter_comments (perl_line : List Char) : List Char :=
  perl_line.take (find_split_idx perl_line '#')

/-- The scanner never finds a split character inside `filter_comments`
output, for the SAME split character used to cut: cutting at the first hit
leaves a prefix with no hit. -/
theorem find_split_idx_take (s : List Char) (c : Char) (m : Nat)
    (hm : m ≤ find_split_idx s c) :
    find_split_idx (s.take m) c = (s.take m).length :=
  fsAux_take c s false false m hm

theorem find_split_idx_le (s : List Char) (c : Char) :
    find_split_idx s c ≤ s.length :=
  fsAux_le c s false false

/-- Claim C9: comment stripping (`filter_comments`) is idempotent — applying
it twice returns the same text as applying it once. -/
theorem filter_comments_idempotent (perl_line : List Char) :
    filter_comments (filter_comments perl_line) = filter_comments perl_line := by
  unfold filter_comments
  rw [find_split_idx_take perl_line '#' _ le_rfl, List.take_length]

/-- Witness: idempotence evaluated on a concrete Perl line. -/
theorem filter_comments_idempotent_witness :
    filter_comments (filter_comments ("$a = 1; # note".toList))
      = filter_comments ("$a = 1; # note".toList) :=
  filter_comments_idempotent ("$a = 1; # note".toList)

/-!
## `extract_vars` (perl_clean.py lines 129-148)

`re.findall(r"[\$\@\%\&\*][a-zA-Z_][a-zA-Z0-9_]*", code)` after
`filter_comments`: every non-overlapping, leftmost-first, greedy match of a
sigil followed by a letter-or-underscore then zero or more word characters.
`findall_perl_vars` implements exactly this scan: try a match at each
position, on success consume it (greedy), on failure advance one character.
-/
def perlSigil (ch : Char) : Bool :=
  ch = '$' || ch = '@' || ch = '%' || ch = '&' || ch = '*'

def wordStart (ch : Char) : Bool :=
  ('a' ≤ ch && ch ≤ 'z') || ('A' ≤ ch && ch ≤ 'Z') || ch = '_'

def wordChar (ch : Char) : Bool :=
  wordStart ch || ('0' ≤ ch && ch ≤ '9')

/-- The scan, with an explicit structural fuel so that the definition
reduces inside the kernel.  One unit of fuel is spent per scan position;
`fuel = length of the list` always suffices (the fuel never drops below the
length of the remaining list), so `findall_perl_vars` below is total and the
`fuel = 0` branch is unreachable from it. -/
def findallAux : Nat → List Char → List (List Char)
  | 0, _ => []
  | _ + 1, [] => []
  | _ + 1, [_] => []
  | n + 1, c :: d :: rest =>
    if perlSigil c && wordStart d then
      (c :: d :: rest.takeWhile wordChar)
        :: findallAux n (rest.dropWhile wordChar)
    else
      findallAux n (d :: rest)

def findall_perl_vars (s : List Char) : List (List Char) :=
  findallAux s.length s

/-- The fuel is irrelevant as long as it is at least the list length. -/
theorem findallAux_fuel : ∀ (n : Nat) (s : List Char) (m : Nat),
    s.length ≤ n → s.length ≤ m → findallAux n s = findallAux m s := by
  intro n
  induction n with
  | zero =>
    intro s m hn _
    rw [List.length_eq_zero.mp (Nat.le_zero.mp hn)]
    cases m <;> rfl
  | succ n ih =>
    intro s m hn hm
    match s, m with
    | [], m => cases m <;> rfl
    | [c], m + 1 => rfl
    | c :: d :: rest, m + 1 =>
      simp only [findallAux]
      simp only [List.length_cons] at hn hm
      have hd : (rest.dropWhile wordChar).length ≤ rest.length :=
        (List.dropWhile_sublist wordChar).length_le
      split
      · rw [ih (rest.dropWhile wordChar) m (by omega) (by omega)]
      · rw [ih (d :: rest) m (by simpa using by omega) (by simpa using by omega)]

theorem findall_cons2 (c d : Char) (rest : List Char) :
    findall_perl_vars (c :: d :: rest)
      = if perlSigil c && wordStart d then
          (c :: d :: rest.takeWhile wordChar)
            :: findall_perl_vars (rest.dropWhile wordChar)
        else
          findall_perl_vars (d :: rest) := by
  show findallAux (rest.length + 1 + 1) (c :: d :: rest) = _
  simp only [findallAux]
  have hd : (rest.dropWhile wordChar).length ≤ rest.length :=
    (List.dropWhile_sublist wordChar).length_le
  split
  · rw [findallAux_fuel (rest.length + 1) (rest.dropWhile wordChar)
      (rest.dropWhile wordChar).length (by omega) le_rfl]
    rfl
  · rw [findallAux_fuel (rest.length + 1) (d :: rest) (d :: rest).length
      (by simp) le_rfl]
    rfl

def extract_vars (perl_line : List Char) : List (List Char) :=
  findall_perl_vars (filter_comments perl_line)

/-!
## `extract_vars_assign` (perl_clean.py lines 158-180)

Strips comments, finds the first unquoted/unescaped `=`, and extracts the
variables of `code[:idx]` (returned first, the "assignees") and of
`code[idx+1:]` (returned second, the "assigners").
-/
def extract_vars_assign (perl_line : List Char) :
    List (List Char) × List (List Char) :=
  let code := filter_comments perl_line
  let assignment_idx := find_split_idx code '='
  let before_assignment := code.take assignment_idx
  let after_assignment := code.drop (assignment_idx + 1)
  (extract_vars before_assignment, extract_vars after_assignment)

/-- Helper: comment stripping reaches a fixed point after one application
(the stripped prefix contains no further splittable comment marker). -/
theorem filter_comments_fix (perl_line : List Char) :
    filter_comments (filter_comments perl_line) = filter_comments perl_line := by
  unfold filter_comments
  rw [find_split_idx_take perl_line '#' _ le_rfl, List.take_length]

/-- Helper: on a statement with no unquoted, unescaped `=`, the split index
computed by `extract_vars_assign` is the length of the comment-stripped
text, so the whole text lands in the first ("assignees") component. -/
theorem extract_vars_assign_of_no_eq (perl_line : List Char)
    (h : find_split_idx perl_line '=' = perl_line.length) :
    extract_vars_assign perl_line = (extract_vars perl_line, []) := by
  unfold extract_vars_assign
  have hf : find_split_idx perl_line '#' ≤ find_split_idx perl_line '=' := by
    rw [h]
    exact find_split_idx_le _ _
  have hcode : find_split_idx (filter_comments perl_line) '='
      = (filter_comments perl_line).length := by
    unfold filter_comments
    exact find_split_idx_take perl_line '=' _ hf
  simp only [hcode, List.take_length, List.drop_eq_nil_of_le (Nat.le_succ _)]
  show (extract_vars (filter_comments perl_line), extract_vars []) = _
  unfold extract_vars
  rw [filter_comments_fix]
  rfl

/-- Claim C1, counterexample: on the statement `print $a;`, which contains
no unquoted, unescaped `=`, the code does NOT return an empty assignees list
with all variables as assigners — it returns exactly the opposite. -/
theorem extract_vars_assign_no_eq_counterexample :
    find_split_idx ("print $a;".toList) '=' = ("print $a;".toList).length ∧
    extract_vars_assign ("print $a;".toList)
      ≠ ([], extract_vars ("print $a;".toList)) := by
  constructor
  · decide
  · decide

/-- Claim C1, amended: for every statement text containing no unquoted,
unescaped `=`, `extract_vars_assign` returns an ASSIGNEES list equal to
every variable found in the statement, in left-to-right order, and an empty
ASSIGNERS list (the converse of what the spec sentence says: with no `=`,
`code[:assignment_idx]` is the whole statement and `code[assignment_idx+1:]`
is empty). -/
theorem extract_vars_assign_no_eq_all_assignees (perl_line : List Char)
    (h : find_split_idx perl_line '=' = perl_line.length) :
    extract_vars_assign perl_line = (extract_vars perl_line, []) :=
  extract_vars_assign_of_no_eq perl_line h

/-- Witness for C1's amended theorem at the concrete statement `print $a;`. -/
theorem extract_vars_assign_no_eq_all_assignees_witness :
    find_split_idx ("print $a;".toList) '=' = ("print $a;".toList).length ∧
    extract_vars_assign ("print $a;".toList)
      = (extract_vars ("print $a;".toList), []) :=
  ⟨by decide, extract_vars_assign_no_eq_all_assignees ("print $a;".toList) (by decide)⟩

theorem takeWhile_append_sep (p : Char → Bool) (y : Char) (hy : p y = false) :
    ∀ (xs ys : List Char), (xs ++ y :: ys).takeWhile p = xs.takeWhile p := by
  intro xs ys
  induction xs with
  | nil => simp [List.takeWhile_cons, hy]
  | cons x xs ih =>
    simp only [List.cons_append, List.takeWhile_cons]
    split
    · rw [ih]
    · rfl

theorem dropWhile_append_sep (p : Char → Bool) (y : Char) (hy : p y = false) :
    ∀ (xs ys : List Char), (xs ++ y :: ys).dropWhile p = xs.dropWhile p ++ y :: ys := by
  intro xs ys
  induction xs with
  | nil => simp [List.dropWhile_cons, hy]
  | cons x xs ih =>
    simp only [List.cons_append, List.dropWhile_cons]
    split
    · rw [ih]
    · rfl

/-- A character that cannot start a sigil match is transparent to the
variable scan when it heads the list. -/
theorem findall_cons_sep (e : Char) (hsig : perlSigil e = false) (v : List Char) :
    findall_perl_vars (e :: v) = findall_perl_vars v := by
  cases v with
  | nil => rfl
  | cons d v' =>
    rw [findall_cons2, if_neg]
    simp [hsig]

/-- Splitting a text at a character that is neither a sigil, nor a word
start, nor a word character (such as `=`) splits the variable list: no
variable occurrence is lost, duplicated or reordered. -/
theorem findall_append_sep (e : Char) (hsig : perlSigil e = false)
    (hws : wordStart e = false) (hwc : wordChar e = false) :
    ∀ (n : Nat) (u v : List Char), u.length ≤ n →
    findall_perl_vars (u ++ e :: v)
      = findall_perl_vars u ++ findall_perl_vars v := by
  intro n
  induction n with
  | zero =>
    intro u v hu
    rw [List.length_eq_zero.mp (Nat.le_zero.mp hu)]
    rw [List.nil_append, findall_cons_sep e hsig]
    rfl
  | succ n ih =>
    intro u v hu
    match u with
    | [] =>
      rw [List.nil_append, findall_cons_sep e hsig]
      rfl
    | [c] =>
      show findall_perl_vars (c :: e :: v) = _
      rw [findall_cons2, if_neg (by simp [hws]), findall_cons_sep e hsig]
      rfl
    | c :: d :: u2 =>
      have hd : (u2.dropWhile wordChar).length ≤ u2.length :=
        (List.dropWhile_sublist wordChar).length_le
      simp only [List.length_cons] at hu
      show findall_perl_vars (c :: d :: (u2 ++ e :: v)) = _
      rw [findall_cons2, findall_cons2]
      by_cases hcd : (perlSigil c && wordStart d) = true
      · rw [if_pos hcd, if_pos hcd]
        rw [takeWhile_append_sep wordChar e hwc, dropWhile_append_sep wordChar e hwc]
        rw [ih (u2.dropWhile wordChar) v (by omega)]
        rfl
      · rw [if_neg hcd, if_neg hcd]
        exact ih (d :: u2) v (by simp; omega)

/-- Helper for C10: on comment-free text, cutting at the first
unquoted/unescaped `=` and extracting variables on each side recovers
exactly the variable list of the whole text. -/
theorem findall_split_at_first_eq (code : List Char)
    (hno : find_split_idx code '#' = code.length) :
    findall_perl_vars (filter_comments (code.take (find_split_idx code '=')))
      ++ findall_perl_vars (filter_comments (code.drop (find_split_idx code '=' + 1)))
      = findall_perl_vars code := by
  rcases Nat.lt_or_ge (find_split_idx code '=') code.length with hlt | hge
  · obtain ⟨u, v, hdec, hlen, hst⟩ :=
      fsAux_fire_decomp '=' (by decide) (by decide) (by decide) code false false hlt
    have hfs : find_split_idx code '=' = u.length := hlen.symm
    have htakeU : code.take u.length = u := by
      rw [hdec]
      exact List.take_left u _
    have hjoin : u ++ '=' :: v = (u ++ ['=']) ++ v := by simp
    have hdropV : code.drop (u.length + 1) = v := by
      rw [hdec, hjoin, show u.length + 1 = (u ++ ['=']).length by simp]
      exact List.drop_left _ _
    have hulen : u.length ≤ code.length := by
      rw [hdec]
      simp
    have hu_no : find_split_idx u '#' = u.length := by
      have h1 := find_split_idx_take code '#' u.length (by rw [hno]; exact hulen)
      rw [htakeU] at h1
      exact h1
    have hfiltU : filter_comments u = u := by
      unfold filter_comments
      rw [hu_no, List.take_length]
    have htake1 : code.take (u.length + 1) = u ++ ['='] := by
      rw [hdec, hjoin, show u.length + 1 = (u ++ ['=']).length by simp]
      exact List.take_left _ _
    have hpre : findSplitIdxAux '#' (u ++ ['=']) false false = (u ++ ['=']).length := by
      have h2 := find_split_idx_take code '#' (u.length + 1)
        (by rw [hno, hdec]; simp)
      rw [htake1] at h2
      exact h2
    have happ := fsAux_append_eq '#' (u ++ ['=']) v false false hpre
    have hstv : scanSt (u ++ ['=']) (false, false) = (false, false) := by
      rw [scanSt_append, hst]
      decide
    have hv_no : find_split_idx v '#' = v.length := by
      have h3 : findSplitIdxAux '#' ((u ++ ['=']) ++ v) false false = code.length := by
        rw [← hjoin, ← hdec]
        exact hno
      rw [hstv] at happ
      have happ2 : findSplitIdxAux '#' ((u ++ ['=']) ++ v) false false
          = (u ++ ['=']).length + findSplitIdxAux '#' v false false := happ
      have h4 : code.length = (u ++ ['=']).length + v.length := by
        rw [hdec]
        simp only [List.length_append, List.length_cons, List.length_nil]
        omega
      show findSplitIdxAux '#' v false false = v.length
      omega
    have hfiltV : filter_comments v = v := by
      unfold filter_comments
      rw [hv_no, List.take_length]
    rw [hfs, htakeU, hdropV, hfiltU, hfiltV, hdec]
    exact (findall_append_sep '=' (by decide) (by decide) (by decide)
      u.length u v le_rfl).symm
  · have hidx : find_split_idx code '=' = code.length :=
      le_antisymm (find_split_idx_le _ _) hge
    have hfilt : filter_comments code = code := by
      unfold filter_comments
      rw [hno, List.take_length]
    rw [hidx, List.take_length, List.drop_eq_nil_of_le (Nat.le_succ _), hfilt]
    show findall_perl_vars code ++ findall_perl_vars (filter_comments []) = _
    simp [filter_comments, find_split_idx, findSplitIdxAux, findall_perl_vars, findallAux]

/-- Claim C10: for every statement text, concatenating the assignees and
assigners returned by `extract_vars_assign` yields, as an ordered sequence,
exactly the full variable list returned by `extract_vars` on the same text:
splitting at the first unquoted, unescaped `=` never loses, duplicates, or
reorders a variable occurrence. -/
theorem extract_vars_assign_concat_eq_extract_vars (perl_line : List Char) :
    (extract_vars_assign perl_line).1 ++ (extract_vars_assign perl_line).2
      = extract_vars perl_line := by
  have hno : find_split_idx (filter_comments perl_line) '#'
      = (filter_comments perl_line).length := by
    unfold filter_comments
    exact find_split_idx_take perl_line '#' _ le_rfl
  exact findall_split_at_first_eq (filter_comments perl_line) hno

/-- Witness: C10 evaluated on the statement `$out = "$in1 $in2"`. -/
theorem extract_vars_assign_concat_eq_extract_vars_witness :
    (extract_vars_assign ("$out = \"$in1 $in2\"".toList)).1
        ++ (extract_vars_assign ("$out = \"$in1 $in2\"".toList)).2
      = extract_vars ("$out = \"$in1 $in2\"".toList) :=
  extract_vars_assign_concat_eq_extract_vars ("$out = \"$in1 $in2\"".toList)

/-!
## Claim C4: quote toggling versus escapes

The spec (and the Python code's own comment saying it checks for
unescaped quotes) says `inQuotes` toggles only on an UNESCAPED quote, but the Python
code toggles `in_quotes` on every quote without consulting `escaped`.
The following definitions follow the spec's words, for comparison with
`find_split_idx` above (which follows the source).
-/

/-- Modelled from the spec's words (spec §4.1): like `findSplitIdxAux`, but
`inQuotes` is "toggled on an unescaped single or double quote". -/
def findSplitIdxSpecAux (split_char : Char) : List Char → Bool → Bool → Nat
  | [], _, _ => 0
  | ch :: rest, q, e =>
    let q2 := if (ch = squote || ch = '"') && !e then !q else q
    let e2 := etoggle ch e
    if ch = split_char && !q2 && !e2 then 0
    else findSplitIdxSpecAux split_char rest q2 (if ch = '\\' then e2 else false) + 1

/-- Modelled from the spec's words: the `inQuotes` state before a given
position, under the spec's toggle-only-on-unescaped-quote rule. -/
def specScanSt : List Char → Bool × Bool → Bool × Bool
  | [], st => st
  | ch :: rest, st =>
    specScanSt rest
      (if (ch = squote || ch = '"') && !st.2 then !st.1 else st.1,
       if ch = '\\' then etoggle ch st.2 else false)

/-- Claim C4, divergence at a concrete input: on the text `"a\"b=` (a quote
opening a string, then an escaped quote inside it, then `=`), the code
returns index 5, although under the spec's quote rule the whole tail is
inside the quoted region opened at index 0: the spec-described scanner
returns the text length 6, and index 5 lies strictly inside a quoted region
(the spec `inQuotes` state before index 5 is `true`).  The code treats the
escaped quote at index 3 as closing the string because `in_quotes` is
toggled even for escaped quotes. -/
theorem find_split_idx_escaped_quote_divergence :
    find_split_idx ("\"a\\\"b=".toList) '=' = 5 ∧
    findSplitIdxSpecAux '=' ("\"a\\\"b=".toList) false false = 6 ∧
    (specScanSt (("\"a\\\"b=".toList).take 5) (false, false)).1 = true := by
  refine ⟨by decide, by decide, by decide⟩

/-!
## Python dictionaries, and `invert_map` (perl_clean.py lines 60-83)

Python `dict`s preserve insertion order; we model them as association lists
in insertion order, with the operations used by `invert_map`:
`value in d` (`containsKey`), `d[k]` for reading (`lookupD`, specialised to
list values, Python's `reversed_map[value]`), in-place update of one entry
(`updateVal`), and appending a fresh entry (`++ [(k, v)]`).
-/

section DictModel

variable {α : Type*} {β : Type*} {γ : Type*} [DecidableEq α]

def dictKeys (m : List (α × β)) : List α := m.map Prod.fst

def containsKey : List (α × β) → α → Bool
  | [], _ => false
  | p :: rest, k => if p.1 = k then true else containsKey rest k

def dictGet? : List (α × β) → α → Option β
  | [], _ => none
  | p :: rest, k => if p.1 = k then some p.2 else dictGet? rest k

def lookupD : List (α × List γ) → α → List γ
  | [], _ => []
  | p :: rest, k => if p.1 = k then p.2 else lookupD rest k

def updateVal (k : α) (f : β → β) : List (α × β) → List (α × β)
  | [] => []
  | p :: rest =>
    if p.1 = k then (p.1, f p.2) :: updateVal k f rest
    else p :: updateVal k f rest

theorem mem_dictKeys (m : List (α × β)) (k : α) :
    k ∈ dictKeys m ↔ containsKey m k = true := by
  induction m with
  | nil => simp [dictKeys, containsKey]
  | cons p rest ih =>
    simp only [dictKeys, List.map_cons, List.mem_cons, containsKey]
    rw [← dictKeys, ih]
    constructor
    · rintro (h | h)
      · rw [if_pos h.symm]
      · split
        · rfl
        · exact h
    · intro h
      by_cases hpk : p.1 = k
      · exact Or.inl hpk.symm
      · rw [if_neg hpk] at h
        exact Or.inr h

theorem lookupD_not_contains (m : List (α × List γ)) (k : α)
    (h : containsKey m k = false) : lookupD m k = [] := by
  induction m with
  | nil => rfl
  | cons p rest ih =>
    rw [containsKey] at h
    rw [lookupD]
    split at h
    · simp at h
    · next hpk =>
      rw [if_neg hpk]
      exact ih h

theorem lookupD_updateVal_ne (m : List (α × List γ)) (k k' : α)
    (f : List γ → List γ) (h : k' ≠ k) :
    lookupD (updateVal k f m) k' = lookupD m k' := by
  induction m with
  | nil => rfl
  | cons p rest ih =>
    rw [updateVal]
    by_cases hpk : p.1 = k
    · rw [if_pos hpk, lookupD, lookupD, if_neg (by rw [hpk]; exact fun hh => h hh.symm),
        if_neg (by rw [hpk]; exact fun hh => h hh.symm)]
      exact ih
    · rw [if_neg hpk, lookupD, lookupD]
      split
      · rfl
      · exact ih

theorem lookupD_updateVal_self (m : List (α × List γ)) (k : α)
    (f : List γ → List γ) (h : containsKey m k = true) :
    lookupD (updateVal k f m) k = f (lookupD m k) := by
  induction m with
  | nil => simp [containsKey] at h
  | cons p rest ih =>
    rw [containsKey] at h
    rw [updateVal]
    by_cases hpk : p.1 = k
    · rw [if_pos hpk, lookupD, if_pos hpk, lookupD, if_pos hpk]
    · rw [if_neg hpk] at h
      rw [if_neg hpk, lookupD, if_neg hpk, lookupD, if_neg hpk]
      exact ih h

theorem dictKeys_updateVal (m : List (α × β)) (k : α) (f : β → β) :
    dictKeys (updateVal k f m) = dictKeys m := by
  induction m with
  | nil => rfl
  | cons p rest ih =>
    rw [updateVal]
    split
    · simp only [dictKeys, List.map_cons] at *
      rw [ih]
    · simp only [dictKeys, List.map_cons] at *
      rw [ih]

theorem containsKey_append (m m' : List (α × β)) (k : α) :
    containsKey (m ++ m') k = (containsKey m k || containsKey m' k) := by
  induction m with
  | nil => simp [containsKey]
  | cons p rest ih =>
    rw [List.cons_append, containsKey, containsKey]
    split
    · simp
    · exact ih

theorem lookupD_append_nil_entry (m : List (α × List γ)) (k v : α) :
    lookupD (m ++ [(v, ([] : List γ))]) k = lookupD m k := by
  induction m with
  | nil =>
    rw [List.nil_append, lookupD, lookupD]
    split <;> rfl
  | cons p rest ih =>
    rw [List.cons_append, lookupD, lookupD]
    split
    · rfl
    · exact ih

theorem mem_lookup_entry (m : List (α × List γ)) (k : α)
    (h : containsKey m k = true) : (k, lookupD m k) ∈ m := by
  induction m with
  | nil => simp [containsKey] at h
  | cons p rest ih =>
    rw [containsKey] at h
    rw [lookupD]
    by_cases hpk : p.1 = k
    · rw [if_pos hpk]
      have hkp : (k, p.2) = p := by rw [← hpk]
      rw [hkp]
      exact List.mem_cons_self _ _
    · rw [if_neg hpk] at h
      rw [if_neg hpk]
      exact List.mem_cons_of_mem _ (ih h)

theorem lookupD_of_nodup_mem (m : List (α × List γ)) (k : α) (l : List γ)
    (hnd : (dictKeys m).Nodup) (hmem : (k, l) ∈ m) : lookupD m k = l := by
  induction m with
  | nil => simp at hmem
  | cons p rest ih =>
    simp only [dictKeys, List.map_cons, List.nodup_cons] at hnd
    rw [lookupD]
    rcases List.mem_cons.mp hmem with h | h
    · rw [← h]
      simp
    · by_cases hpk : p.1 = k
      · exfalso
        apply hnd.1
        rw [hpk]
        exact (mem_dictKeys rest k).mpr
          ((mem_dictKeys rest k).mp (by
            have : k ∈ dictKeys rest := List.mem_map.mpr ⟨(k, l), h, rfl⟩
            exact this))
      · rw [if_neg hpk]
        exact ih hnd.2 h

theorem mem_lookupD_exists (m : List (α × List γ)) (k : α) (x : γ)
    (h : x ∈ lookupD m k) : ∃ l, (k, l) ∈ m ∧ x ∈ l := by
  induction m with
  | nil => simp [lookupD] at h
  | cons p rest ih =>
    rw [lookupD] at h
    by_cases hpk : p.1 = k
    · rw [if_pos hpk] at h
      exact ⟨p.2, by rw [← hpk]; exact List.mem_cons_self _ _, h⟩
    · rw [if_neg hpk] at h
      obtain ⟨l, hl, hx⟩ := ih h
      exact ⟨l, List.mem_cons_of_mem _ hl, hx⟩

theorem containsKey_iff_exists (m : List (α × β)) (k : α) :
    containsKey m k = true ↔ ∃ b, (k, b) ∈ m := by
  induction m with
  | nil => simp [containsKey]
  | cons p rest ih =>
    rw [containsKey]
    constructor
    · intro h
      split at h
      · next hpk => exact ⟨p.2, by rw [← hpk]; exact List.mem_cons_self _ _⟩
      · obtain ⟨b, hb⟩ := ih.mp h
        exact ⟨b, List.mem_cons_of_mem _ hb⟩
    · rintro ⟨b, hb⟩
      rcases List.mem_cons.mp hb with h | h
      · rw [← h]
        simp
      · split
        · rfl
        · exact ih.mpr ⟨b, h⟩

theorem lookupD_perm (m m' : List (α × List γ)) (k : α)
    (hnd : (dictKeys m).Nodup) (hp : m.Perm m') :
    lookupD m k = lookupD m' k := by
  have hnd' : (dictKeys m').Nodup := ((hp.map Prod.fst).nodup_iff).mp hnd
  by_cases hc : containsKey m k = true
  · have hmem := mem_lookup_entry m k hc
    exact (lookupD_of_nodup_mem m' k _ hnd' (hp.mem_iff.mp hmem)).symm
  · have hc2 : containsKey m' k = false := by
      rw [Bool.eq_false_iff]
      intro hcc
      apply absurd _ hc
      rw [containsKey_iff_exists] at hcc ⊢
      obtain ⟨b, hb⟩ := hcc
      exact ⟨b, hp.mem_iff.mpr hb⟩
    rw [lookupD_not_contains m k (Bool.eq_false_iff.mpr hc),
      lookupD_not_contains m' k hc2]

end DictModel

section InvertMap

variable {α : Type*} {β : Type*} [DecidableEq α] [DecidableEq β]

/-- First statement of the inner loop body of `invert_map` (lines 72-74):
create the entry `reversed_map[value] = []` when missing. -/
def invertEnsure (acc : List (β × List α)) (value : β) : List (β × List α) :=
  if containsKey acc value then acc else acc ++ [(value, [])]

/-- Body of the nested loops of `invert_map` (lines 69-78): for one `key`
(an original key) and one `value` (an element of its value list), create the
entry `reversed_map[value] = []` if missing, then append `key` to
`reversed_map[value]` unless already present. -/
def invertInner (key : α) (acc : List (β × List α)) (value : β) :
    List (β × List α) :=
  if key ∈ lookupD (invertEnsure acc value) value then invertEnsure acc value
  else updateVal value (fun l => l ++ [key]) (invertEnsure acc value)

/-- The two nested `for` loops of `invert_map`, before the final sort. -/
def invertFold (m : List (α × List β)) : List (β × List α) :=
  m.foldl (fun acc kv => kv.2.foldl (invertInner kv.1) acc) []

theorem lookupD_invertEnsure (acc : List (β × List α)) (value x : β) :
    lookupD (invertEnsure acc value) x = lookupD acc x := by
  unfold invertEnsure
  split
  · rfl
  · exact lookupD_append_nil_entry acc x value

theorem containsKey_invertEnsure (acc : List (β × List α)) (value : β) :
    containsKey (invertEnsure acc value) value = true := by
  unfold invertEnsure
  split
  · assumption
  · rw [containsKey_append]
    simp [containsKey]

theorem dictKeys_invertEnsure (acc : List (β × List α)) (value : β) :
    dictKeys (invertEnsure acc value)
      = if containsKey acc value then dictKeys acc else dictKeys acc ++ [value] := by
  unfold invertEnsure
  split
  · rfl
  · simp [dictKeys]

theorem mem_lookupD_invertInner (key k : α) (acc : List (β × List α)) (value v : β) :
    k ∈ lookupD (invertInner key acc value) v
      ↔ k ∈ lookupD acc v ∨ (k = key ∧ v = value) := by
  unfold invertInner
  by_cases hmem : key ∈ lookupD (invertEnsure acc value) value
  · rw [if_pos hmem, lookupD_invertEnsure]
    rw [lookupD_invertEnsure] at hmem
    constructor
    · exact Or.inl
    · rintro (h | ⟨hk, hv⟩)
      · exact h
      · rw [hk, hv]
        exact hmem
  · rw [if_neg hmem]
    by_cases hv : v = value
    · subst hv
      rw [lookupD_updateVal_self _ _ _ (containsKey_invertEnsure acc v),
        lookupD_invertEnsure]
      simp only [List.mem_append, List.mem_singleton]
      tauto
    · rw [lookupD_updateVal_ne _ _ _ _ hv, lookupD_invertEnsure]
      tauto

theorem mem_dictKeys_invertInner (key : α) (acc : List (β × List α)) (value v : β) :
    v ∈ dictKeys (invertInner key acc value) ↔ v ∈ dictKeys acc ∨ v = value := by
  unfold invertInner
  have hkeys : ∀ (h : Prop) [Decidable h],
      dictKeys (if h then invertEnsure acc value
        else updateVal value (fun l => l ++ [key]) (invertEnsure acc value))
        = dictKeys (invertEnsure acc value) := by
    intro h _
    split
    · rfl
    · exact dictKeys_updateVal _ _ _
  rw [hkeys, dictKeys_invertEnsure]
  split
  · next hc =>
    constructor
    · exact Or.inl
    · rintro (h | h)
      · exact h
      · rw [h, mem_dictKeys]
        exact hc
  · simp only [List.mem_append, List.mem_singleton]

theorem nodup_dictKeys_invertInner (key : α) (acc : List (β × List α)) (value : β)
    (h : (dictKeys acc).Nodup) :
    (dictKeys (invertInner key acc value)).Nodup := by
  unfold invertInner
  have hkeys : ∀ (hp : Prop) [Decidable hp],
      dictKeys (if hp then invertEnsure acc value
        else updateVal value (fun l => l ++ [key]) (invertEnsure acc value))
        = dictKeys (invertEnsure acc value) := by
    intro hp _
    split
    · rfl
    · exact dictKeys_updateVal _ _ _
  rw [hkeys, dictKeys_invertEnsure]
  split
  · exact h
  · next hc =>
    rw [List.nodup_append]
    refine ⟨h, by simp, ?_⟩
    intro x hx
    simp only [List.mem_singleton]
    intro hxv
    rw [hxv] at hx
    rw [mem_dictKeys] at hx
    rw [hx] at hc
    exact hc rfl

theorem mem_lookupD_foldInner (key : α) (vs : List β) :
    ∀ (acc : List (β × List α)) (k : α) (v : β),
    k ∈ lookupD (vs.foldl (invertInner key) acc) v
      ↔ k ∈ lookupD acc v ∨ (k = key ∧ v ∈ vs) := by
  induction vs with
  | nil => intro acc k v; simp
  | cons v0 vs ih =>
    intro acc k v
    rw [List.foldl_cons, ih, mem_lookupD_invertInner]
    simp only [List.mem_cons]
    tauto

theorem mem_dictKeys_foldInner (key : α) (vs : List β) :
    ∀ (acc : List (β × List α)) (v : β),
    v ∈ dictKeys (vs.foldl (invertInner key) acc)
      ↔ v ∈ dictKeys acc ∨ v ∈ vs := by
  induction vs with
  | nil => intro acc v; simp
  | cons v0 vs ih =>
    intro acc v
    rw [List.foldl_cons, ih, mem_dictKeys_invertInner]
    simp only [List.mem_cons]
    tauto

theorem nodup_dictKeys_foldInner (key : α) (vs : List β) :
    ∀ (acc : List (β × List α)), (dictKeys acc).Nodup →
    (dictKeys (vs.foldl (invertInner key) acc)).Nodup := by
  induction vs with
  | nil => intro acc h; exact h
  | cons v0 vs ih =>
    intro acc h
    rw [List.foldl_cons]
    exact ih _ (nodup_dictKeys_invertInner key acc v0 h)

theorem mem_lookupD_foldOuter (m : List (α × List β)) :
    ∀ (acc0 : List (β × List α)) (k : α) (v : β),
    k ∈ lookupD (m.foldl (fun acc kv => kv.2.foldl (invertInner kv.1) acc) acc0) v
      ↔ k ∈ lookupD acc0 v ∨ ∃ vs, (k, vs) ∈ m ∧ v ∈ vs := by
  induction m with
  | nil => intro acc0 k v; simp
  | cons kv m ih =>
    intro acc0 k v
    rw [List.foldl_cons, ih, mem_lookupD_foldInner]
    constructor
    · rintro (⟨h | ⟨hk, hv⟩⟩ | ⟨vs, hvs, hv⟩)
      · exact Or.inl h
      · exact Or.inr ⟨kv.2, by rw [hk]; exact ⟨List.mem_cons_self _ _, hv⟩⟩
      · exact Or.inr ⟨vs, List.mem_cons_of_mem _ hvs, hv⟩
    · rintro (h | ⟨vs, hvs, hv⟩)
      · exact Or.inl (Or.inl h)
      · rcases List.mem_cons.mp hvs with h | h
        · refine Or.inl (Or.inr ⟨?_, ?_⟩)
          · rw [show k = (k, vs).1 from rfl, h]
          · rw [show vs = (k, vs).2 from rfl, h] at hv
            exact hv
        · exact Or.inr ⟨vs, h, hv⟩

theorem mem_dictKeys_foldOuter (m : List (α × List β)) :
    ∀ (acc0 : List (β × List α)) (v : β),
    v ∈ dictKeys (m.foldl (fun acc kv => kv.2.foldl (invertInner kv.1) acc) acc0)
      ↔ v ∈ dictKeys acc0 ∨ ∃ k vs, (k, vs) ∈ m ∧ v ∈ vs := by
  induction m with
  | nil => intro acc0 v; simp
  | cons kv m ih =>
    intro acc0 v
    rw [List.foldl_cons, ih, mem_dictKeys_foldInner]
    constructor
    · rintro (⟨h | hv⟩ | ⟨k, vs, hvs, hv⟩)
      · exact Or.inl h
      · exact Or.inr ⟨kv.1, kv.2, List.mem_cons_self _ _, hv⟩
      · exact Or.inr ⟨k, vs, List.mem_cons_of_mem _ hvs, hv⟩
    · rintro (h | ⟨k, vs, hvs, hv⟩)
      · exact Or.inl (Or.inl h)
      · rcases List.mem_cons.mp hvs with h | h
        · refine Or.inl (Or.inr ?_)
          rw [show vs = (k, vs).2 from rfl, h] at hv
          exact hv
        · exact Or.inr ⟨k, vs, h, hv⟩

theorem nodup_dictKeys_foldOuter (m : List (α × List β)) :
    ∀ (acc0 : List (β × List α)), (dictKeys acc0).Nodup →
    (dictKeys (m.foldl (fun acc kv => kv.2.foldl (invertInner kv.1) acc) acc0)).Nodup := by
  induction m with
  | nil => intro acc0 h; exact h
  | cons kv m ih =>
    intro acc0 h
    rw [List.foldl_cons]
    exact ih _ (nodup_dictKeys_foldInner kv.1 kv.2 acc0 h)

end InvertMap

/-- `invert_map` (perl_clean.py lines 60-83): swap keys and values of a
map whose values are lists, suppressing duplicates, then return the entries
sorted (Python's `dict(sorted(reversed_map.items()))`; the keys of
`reversed_map` are distinct, so sorting the pairs lexicographically is
sorting by key, and Python's stable sort is modelled with a stable
insertion sort on the key). -/
def invert_map {α : Type*} {β : Type*} [DecidableEq α] [LinearOrder β]
    (m : List (α × List β)) : List (β × List α) :=
  (invertFold m).insertionSort (fun a b => a.1 ≤ b.1)

theorem invert_map_perm_fold {α : Type*} {β : Type*} [DecidableEq α] [LinearOrder β]
    (m : List (α × List β)) : (invert_map m).Perm (invertFold m) :=
  List.perm_insertionSort _ _

theorem mem_dictKeys_invert_map {α : Type*} {β : Type*} [DecidableEq α] [LinearOrder β]
    (m : List (α × List β)) (v : β) :
    v ∈ dictKeys (invert_map m) ↔ ∃ k vs, (k, vs) ∈ m ∧ v ∈ vs := by
  unfold dictKeys
  rw [List.Perm.mem_iff ((invert_map_perm_fold m).map Prod.fst)]
  show v ∈ dictKeys (invertFold m) ↔ _
  unfold invertFold
  rw [mem_dictKeys_foldOuter]
  simp [dictKeys]

theorem nodup_dictKeys_invert_map {α : Type*} {β : Type*} [DecidableEq α] [LinearOrder β]
    (m : List (α × List β)) : (dictKeys (invert_map m)).Nodup := by
  unfold dictKeys
  rw [List.Perm.nodup_iff ((invert_map_perm_fold m).map Prod.fst)]
  exact nodup_dictKeys_foldOuter m [] (by simp [dictKeys])

theorem mem_lookupD_invert_map {α : Type*} {β : Type*} [DecidableEq α] [LinearOrder β]
    (m : List (α × List β)) (k : α) (v : β) :
    k ∈ lookupD (invert_map m) v ↔ ∃ vs, (k, vs) ∈ m ∧ v ∈ vs := by
  rw [← lookupD_perm (invertFold m) (invert_map m) v
    (nodup_dictKeys_foldOuter m [] (by simp [dictKeys]))
    (invert_map_perm_fold m).symm]
  show k ∈ lookupD (invertFold m) v ↔ _
  unfold invertFold
  rw [mem_lookupD_foldOuter]
  simp [lookupD]

/-- Claim C8: for every mapping whose value lists are all non-empty (as the
index builder produces: a variable is only recorded with the lines it
actually appears on), applying `invert_map` twice yields a mapping whose
key set equals the original key set exactly — no key lost, none duplicated
(stated as a permutation of the key lists, which are duplicate-free on both
sides). -/
theorem invert_map_roundtrip_keys {α : Type*} {β : Type*}
    [LinearOrder α] [LinearOrder β] (m : List (α × List β))
    (hnd : (dictKeys m).Nodup) (hne : ∀ p ∈ m, p.2 ≠ []) :
    (dictKeys (invert_map (invert_map m))).Perm (dictKeys m) := by
  rw [List.perm_ext_iff_of_nodup (nodup_dictKeys_invert_map _) hnd]
  intro a
  rw [mem_dictKeys_invert_map]
  constructor
  · rintro ⟨v, ks, hmem, hak⟩
    have : a ∈ lookupD (invert_map m) v := by
      rw [lookupD_of_nodup_mem _ _ _ (nodup_dictKeys_invert_map m) hmem]
      exact hak
    rw [mem_lookupD_invert_map] at this
    obtain ⟨vs, hvs, _⟩ := this
    exact List.mem_map.mpr ⟨(a, vs), hvs, rfl⟩
  · intro ha
    obtain ⟨p, hp, hpa⟩ := List.mem_map.mp ha
    have hpne := hne p hp
    obtain ⟨v, hv⟩ := List.exists_mem_of_ne_nil p.2 hpne
    have hlook : a ∈ lookupD (invert_map m) v := by
      rw [mem_lookupD_invert_map]
      exact ⟨p.2, by rw [← hpa]; exact ⟨hp, hv⟩⟩
    have hcont : containsKey (invert_map m) v = true := by
      rw [containsKey_iff_exists]
      obtain ⟨l, hl, _⟩ := mem_lookupD_exists _ _ _ hlook
      exact ⟨l, hl⟩
    exact ⟨v, lookupD (invert_map m) v, mem_lookup_entry _ _ hcont, hlook⟩

/-- Witness for C8 on the docstring example of `invert_map`
(`{"$hi": [1], "$bye": [1, 2]}`), whose value lists are non-empty. -/
theorem invert_map_roundtrip_keys_witness :
    (dictKeys (invert_map (invert_map
        [("$hi".toList, [1]), ("$bye".toList, [1, 2])]))).Perm
      (dictKeys [("$hi".toList, [1]), ("$bye".toList, [1, 2])]) :=
  invert_map_roundtrip_keys [("$hi".toList, [1]), ("$bye".toList, [1, 2])]
    (by decide) (by decide)

/-!
## `recursive_trace` (perl_clean.py lines 213-244)

The Python function reads `mapping[item]` (raising `KeyError` when `item`
is not a key) and recurses into `recursive_trace(var, mapping, True)` for
every `var` in `mapping[item]`, with NO visited set and no depth guard;
on a cyclic mapping the recursion never returns (Python dies with
`RecursionError`).  The embedding therefore takes an explicit fuel
parameter: a `KeyError` is modelled as `Except.error (.keyError k)`, and
exhausting the fuel as `Except.error .recursionError`; genuine
non-termination shows up as returning `.error .recursionError` for EVERY
fuel. -/
inductive PyErr where
  | keyError (k : List Char)
  | recursionError
  | indexError
  deriving DecidableEq

/-- The `for var in current_values` loop (lines 226-232): backtrace each
current value with `secondary = True` and merge the reported secondary
traces, skipping duplicates and members of `current_values`.  `rt` is the
one-step-smaller recursive call. -/
def traceLoop (rt : List Char → Except PyErr (List (List Char) × List (List Char)))
    (current_values : List (List Char)) :
    List (List Char) → List (List Char) → Except PyErr (List (List Char))
  | [], secondary_backtraces => .ok secondary_backtraces
  | var :: rest, secondary_backtraces =>
    match rt var with
    | .error err => .error err
    | .ok (_, trace_results) =>
      traceLoop rt current_values rest
        (trace_results.foldl
          (fun sb res =>
            if ¬ res ∈ sb ∧ ¬ res ∈ current_values then sb ++ [res] else sb)
          secondary_backtraces)

/-- Lines 234-244: in a secondary call, additionally merge the current
values into the secondary backtraces and report `([], backtraces)`;
otherwise report `(current_values, backtraces)`. -/
def traceFinish (secondary : Bool) (current_values : List (List Char)) :
    Except PyErr (List (List Char)) →
    Except PyErr (List (List Char) × List (List Char))
  | .error err => .error err
  | .ok secondary_backtraces =>
    if secondary then
      .ok ([], current_values.foldl
        (fun sb var => if ¬ var ∈ sb then sb ++ [var] else sb)
        secondary_backtraces)
    else
      .ok (current_values, secondary_backtraces)

def recursive_trace :
    Nat → List Char → List (List Char × List (List Char)) → Bool →
    Except PyErr (List (List Char) × List (List Char))
  | 0, _, _, _ => .error .recursionError
  | fuel + 1, item, mapping, secondary =>
    match dictGet? mapping item with
    | none => .error (.keyError item)
    | some current_values =>
      traceFinish secondary current_values
        (traceLoop (fun var => recursive_trace fuel var mapping true)
          current_values current_values [])

/-- The cyclic dependency graph of spec §8: `$a` assigned from `$b` and
`$b` assigned from `$a`. -/
def cycDependsOn : List (List Char × List (List Char)) :=
  [("$a".toList, ["$b".toList]), ("$b".toList, ["$a".toList])]

theorem recursive_trace_cyc_aux : ∀ (fuel : Nat),
    recursive_trace fuel ("$a".toList) cycDependsOn true = .error .recursionError ∧
    recursive_trace fuel ("$b".toList) cycDependsOn true = .error .recursionError := by
  intro fuel
  induction fuel with
  | zero => exact ⟨rfl, rfl⟩
  | succ n ih =>
    constructor
    · show traceFinish true _ (traceLoop _ _ _ _) = _
      rw [show (traceLoop (fun var => recursive_trace n var cycDependsOn true)
          ["$b".toList] ["$b".toList] [])
          = .error .recursionError by
        rw [traceLoop, ih.2]]
      rfl
    · show traceFinish true _ (traceLoop _ _ _ _) = _
      rw [show (traceLoop (fun var => recursive_trace n var cycDependsOn true)
          ["$a".toList] ["$a".toList] [])
          = .error .recursionError by
        rw [traceLoop, ih.1]]
      rfl

/-- Claim C2, refuted: on the cyclic `dependsOn` graph `$a → $b`, `$b → $a`
of spec §8, `recursive_trace` does NOT terminate — the code has no visited
set, so the recursion `$a → $b → $a → …` exhausts EVERY recursion budget
(Python raises `RecursionError`); no finite `direct`/`indirect` sets are
ever returned. -/
theorem recursive_trace_cycle_nonterminating : ∀ (fuel : Nat),
    recursive_trace fuel ("$a".toList) cycDependsOn false
      = .error .recursionError := by
  intro fuel
  cases fuel with
  | zero => rfl
  | succ n =>
    show traceFinish false _ (traceLoop _ _ _ _) = _
    rw [show (traceLoop (fun var => recursive_trace n var cycDependsOn true)
        ["$b".toList] ["$b".toList] [])
        = .error .recursionError by
      rw [traceLoop, (recursive_trace_cyc_aux n).2]]
    rfl

/-- Witness-style instance of C2's refutation at a concrete fuel. -/
theorem recursive_trace_cycle_nonterminating_witness :
    recursive_trace 7 ("$a".toList) cycDependsOn false
      = .error .recursionError :=
  recursive_trace_cycle_nonterminating 7

/-- Claim C3, refuted: tracing `$a` on the mapping `{"$a": ["$b"]}` (as
produced by a file like `$a = "x$b"; system($a);`) recurses into `$b`,
which has no recorded assignment, and `mapping["$b"]` raises `KeyError`
instead of yielding an empty direct set: `recursive_trace` has no default
for missing keys. -/
theorem recursive_trace_missing_key_keyerror :
    recursive_trace 10 ("$a".toList) [("$a".toList, ["$b".toList])] false
      = .error (.keyError ("$b".toList)) := by
  rfl

/-!
## `create_shadow_file` (perl_clean.py lines 250-284)

The filesystem is modelled as an association list from paths to raw file
text.  `readlines` splits text into lines, each keeping its trailing
newline (the last line keeps none if the file does not end with a newline);
`writelines` is concatenation.  Python list indexing `read_output[line - 1]`
is modelled with Python's semantics (negative indices wrap; out of range
raises `IndexError`).  The statement `read_output[:-1] += "\n"` of line 277
slice-assigns: it takes a copy of all but the last element, extends that
COPY with the characters of `"\n"` (one element, the string `"\n"`), and
writes the result back over the slice — so it inserts a `"\n"` element
BEFORE the last line. -/
structure FS where
  files : List (String × List Char)

def FS.existsb (fs : FS) (p : String) : Bool := containsKey fs.files p

def FS.read? (fs : FS) (p : String) : Option (List Char) := dictGet? fs.files p

/-- `open(p, "w")` + `writelines`: truncate/overwrite if the path exists,
create it otherwise. -/
def FS.write (fs : FS) (p : String) (t : List Char) : FS :=
  if containsKey fs.files p then ⟨updateVal p (fun _ => t) fs.files⟩
  else ⟨fs.files ++ [(p, t)]⟩

def readlinesAux : List Char → List Char → List (List Char)
  | [], acc => if acc = [] then [] else [acc.reverse]
  | ch :: rest, acc =>
    if ch = '\n' then (acc.reverse ++ ['\n']) :: readlinesAux rest []
    else readlinesAux rest (ch :: acc)

def readlines (t : List Char) : List (List Char) := readlinesAux t []

/-- Python list index semantics: negative indices count from the end,
anything out of `[-n, n-1]` is an `IndexError` (`none`). -/
def pyIdx (n : Nat) (i : Int) : Option Nat :=
  let j := if i < 0 then i + n else i
  if 0 ≤ j ∧ j < n then some j.toNat else none

/-- The prepend loop (lines 268-274):
`read_output[line - 1] = f"{code}; {read_output[line - 1]}"`. -/
def prependLoop : List (List Char) → List (Nat × List Char) →
    Option (List (List Char))
  | read_output, [] => some read_output
  | read_output, (line, code) :: rest =>
    match pyIdx read_output.length ((line : Int) - 1) with
    | none => none
    | some j =>
      match read_output.get? j with
      | none => none
      | some orig =>
        prependLoop (read_output.set j (code ++ "; ".toList ++ orig)) rest

/-- The result is `(error?, filesystem)`: on error the filesystem is
returned untouched (the Python `assert` fires before anything is opened,
and nothing has been written when the other errors are raised). -/
def create_shadow_file (fs : FS) (perl_filepath : String)
    (prepends : List (Nat × List Char)) (postpends : List (List Char))
    (filename : String) : Option String × FS :=
  if FS.existsb fs filename then
    (some ("AssertionError: Shadow file " ++ filename
      ++ " already exists. Make sure you get rid of that."), fs)
  else
    match FS.read? fs perl_filepath with
    | none => (some "FileNotFoundError", fs)
    | some text =>
      let read_output := readlines text
      match prependLoop read_output prepends with
      | none => (some "IndexError", fs)
      | some ro1 =>
        let ro2 := ro1.take (ro1.length - 1) ++ [['\n']]
          ++ ro1.drop (ro1.length - 1)
        let ro3 := ro2 ++ postpends.map (fun code => code ++ ['\n'])
        (none, FS.write fs filename ro3.flatten)

/-- Claim C7: when the target path already exists, `create_shadow_file`
fails (the `assert` of line 259 raises before any file is opened) and the
filesystem is returned exactly as it was — no file is created or
modified. -/
theorem create_shadow_file_exists_no_write (fs : FS) (perl_filepath : String)
    (prepends : List (Nat × List Char)) (postpends : List (List Char))
    (filename : String) (h : FS.existsb fs filename = true) :
    create_shadow_file fs perl_filepath prepends postpends filename
      = (some ("AssertionError: Shadow file " ++ filename
          ++ " already exists. Make sure you get rid of that."), fs) := by
  unfold create_shadow_file
  rw [if_pos h]

/-- Witness for C7: the guard fires on a pre-existing shadow file and the
filesystem (including the target's prior content) is untouched. -/
theorem create_shadow_file_exists_no_write_witness :
    create_shadow_file ⟨[("perl_clean_shadow.pl", "old".toList)]⟩ "victim.pl"
        [] [] "perl_clean_shadow.pl"
      = (some ("AssertionError: Shadow file " ++ "perl_clean_shadow.pl"
          ++ " already exists. Make sure you get rid of that."),
         ⟨[("perl_clean_shadow.pl", "old".toList)]⟩) :=
  create_shadow_file_exists_no_write ⟨[("perl_clean_shadow.pl", "old".toList)]⟩
    "victim.pl" [] [] "perl_clean_shadow.pl" (by rfl)

/-- Claim C5, refuted: materialising a shadow copy does NOT reproduce the
source lines verbatim.  On a two-line source `a\nb` with no prepends and no
postpends, line 277 (`read_output[:-1] += "\n"`) inserts a spurious blank
line BEFORE the last line: the shadow file contains `a\n\nb`, not `a\nb`
(and the prior content still does not end with a newline). -/
theorem create_shadow_file_inserts_blank_line :
    create_shadow_file ⟨[("original.pl", "a\nb".toList)]⟩ "original.pl"
        [] [] "perl_clean_shadow.pl"
      = (none, ⟨[("original.pl", "a\nb".toList),
          ("perl_clean_shadow.pl", "a\n\nb".toList)]⟩) := by
  rfl

/-!
## `handle_tainted_var`, after the secondary oracle run
(perl_clean.py lines 363-394)

The part of `handle_tainted_var` that follows the secondary instrumented
run is pure: from the sliced verdict list `feedback` (one `"tainted"` /
`"untainted"` string per candidate, positionally aligned with
`possibly_tainted`) it collects the confirmed-tainted variables, builds the
de-tainting patch text, and builds the user-facing summary (which reads
`var_to_lines[var]` — a possible `KeyError` — and runs `recursive_trace`).
-/

/-- Python `str.replace(pat, rep)`: replace every non-overlapping
occurrence, left to right.  Structural fuel (one unit per position,
`fuel = length` always suffices); the call sites only use a non-empty
pattern, and the fuel-exhausted branch is unreachable from `pyReplace`. -/
def pyReplaceAux (pat rep : List Char) : Nat → List Char → List Char
  | 0, s => s
  | _ + 1, [] => []
  | fuel + 1, ch :: rest =>
    if pat ≠ [] ∧ pat.isPrefixOf (ch :: rest) then
      rep ++ pyReplaceAux pat rep fuel ((ch :: rest).drop pat.length)
    else
      ch :: pyReplaceAux pat rep fuel rest

def pyReplace (pat rep s : List Char) : List Char :=
  pyReplaceAux pat rep s.length s

/-- Python `str(list_of_ints)`, e.g. `[1, 2]`. -/
def pyStrOfNatList (xs : List Nat) : List Char :=
  '[' :: (List.intercalate ", ".toList (xs.map (fun n => (Nat.repr n).toList))
    ++ [']'])

/-- Python `str(list_of_strings)`, e.g. `['$a', '$b']` (no quote or escape
characters occur inside Perl variable names, so plain single-quoting
matches Python's repr). -/
def pyReprOfStrList (xs : List (List Char)) : List Char :=
  '[' :: (List.intercalate ", ".toList (xs.map (fun v => squote :: (v ++ [squote])))
    ++ [']'])

/-- The de-tainting idiom of line 375,
`"if ($input =~ m{^(.*)$}) { $input = $1 };"`. -/
def detaint_template : List Char :=
  "if ($input =~ m\x7b^(.*)$\x7d) \x7b $input = $1 \x7d;".toList

/-- Lines 373-375: one de-tainting statement per confirmed-tainted
variable, concatenated (`.replace("$input", var)` on the template). -/
def detainting_scripts_of (tainted_vars : List (List Char)) : List Char :=
  tainted_vars.foldl
    (fun acc var => acc ++ pyReplace ("$input".toList) var detaint_template) []

/-- Lines 364-367: `for i in range(len(feedback)): if feedback[i] ==
"tainted": tainted_vars.append(possibly_tainted[i])`.  The index `i` is
always in range for `feedback` (it comes from `range(len(feedback))`, so
`getD` reads the actual element); `possibly_tainted[i]` can raise
`IndexError` (`none`) if the verdict list is longer than the candidate
list. -/
def taintedVarsLoop (feedback possibly_tainted : List (List Char)) :
    List Nat → List (List Char) → Option (List (List Char))
  | [], tainted_vars => some tainted_vars
  | i :: rest, tainted_vars =>
    if feedback.getD i [] = "tainted".toList then
      match possibly_tainted.get? i with
      | none => none
      | some v =>
        taintedVarsLoop feedback possibly_tainted rest (tainted_vars ++ [v])
    else
      taintedVarsLoop feedback possibly_tainted rest tainted_vars

def tainted_vars_of (feedback possibly_tainted : List (List Char)) :
    Option (List (List Char)) :=
  taintedVarsLoop feedback possibly_tainted (List.range feedback.length) []

/-- Lines 382-394: the executive summary, one block per confirmed-tainted
variable, reading `var_to_lines[var]` (KeyError when absent) and tracing
the variable through `recursive_trace` (with explicit fuel, see above). -/
def summaryLoop (tainted_line fuel : Nat)
    (var_to_lines : List (List Char × List Nat))
    (assignee_to_assigner : List (List Char × List (List Char))) :
    List (List Char) → List Char → Except PyErr (List Char)
  | [], summary => .ok summary
  | var :: rest, summary =>
    match dictGet? var_to_lines var with
    | none => .error (.keyError var)
    | some lines =>
      match recursive_trace fuel var assignee_to_assigner false with
      | .error err => .error err
      | .ok (primary_trace, secondary_trace) =>
        summaryLoop tainted_line fuel var_to_lines assignee_to_assigner rest
          (summary
            ++ "--------------\nTainted variable ".toList ++ var
            ++ " found in line ".toList ++ (Nat.repr tainted_line).toList
            ++ ".\n".toList ++ var
            ++ " The taint is also found in the following lines: ".toList
            ++ pyStrOfNatList lines
            ++ "\nThese variables might be directly tainting ".toList ++ var
            ++ ": ".toList ++ pyReprOfStrList primary_trace
            ++ "\nThese variables might be indirectly tainting ".toList ++ var
            ++ ": ".toList ++ pyReprOfStrList secondary_trace)

/-- The pure tail of `handle_tainted_var` (everything after the secondary
oracle run is parsed into `feedback`): returns the de-tainting patch text
spliced into the fresh shadow file and the summary returned to the
caller. -/
def handle_tainted_var_tail (feedback possibly_tainted : List (List Char))
    (tainted_line fuel : Nat)
    (var_to_lines : List (List Char × List Nat))
    (assignee_to_assigner : List (List Char × List (List Char))) :
    Except PyErr (List Char × List Char) :=
  match tainted_vars_of feedback possibly_tainted with
  | none => .error .indexError
  | some tainted_vars =>
    match summaryLoop tainted_line fuel var_to_lines assignee_to_assigner
        tainted_vars [] with
    | .error err => .error err
    | .ok summary => .ok (detainting_scripts_of tainted_vars, summary)

/-- Claim C6, refuted: when the secondary instrumented run yields no
`"tainted"` verdict for any candidate, `handle_tainted_var` does NOT report
the ambiguity — it returns an EMPTY summary and an EMPTY de-tainting patch
(the patch only prepends `"; "` to the offending line, a semantic no-op),
so the runner re-encounters the identical diagnostic and loops forever. -/
theorem handle_tainted_var_silent_on_no_verdict
    (feedback possibly_tainted : List (List Char)) (tainted_line fuel : Nat)
    (var_to_lines : List (List Char × List Nat))
    (assignee_to_assigner : List (List Char × List (List Char)))
    (h : ¬ "tainted".toList ∈ feedback) :
    handle_tainted_var_tail feedback possibly_tainted tainted_line fuel
      var_to_lines assignee_to_assigner = .ok ([], []) := by
  have hall : ∀ i ∈ List.range feedback.length,
      feedback.getD i [] ≠ "tainted".toList := by
    intro i hi
    rw [List.mem_range] at hi
    intro hcontra
    apply h
    rw [← hcontra, List.getD_eq_getElem feedback [] hi]
    exact List.getElem_mem hi
  have hloop : ∀ (is : List Nat) (acc : List (List Char)),
      (∀ i ∈ is, feedback.getD i [] ≠ "tainted".toList) →
      taintedVarsLoop feedback possibly_tainted is acc = some acc := by
    intro is
    induction is with
    | nil => intro acc _; rfl
    | cons i rest ih =>
      intro acc hallc
      rw [taintedVarsLoop, if_neg (hallc i (List.mem_cons_self _ _))]
      exact ih acc (fun j hj => hallc j (List.mem_cons_of_mem _ hj))
  unfold handle_tainted_var_tail tainted_vars_of
  rw [hloop _ [] hall]
  rfl

/-- Witness for C6: two candidates, both reported `"untainted"` — the
remediator emits an empty patch and an empty summary. -/
theorem handle_tainted_var_silent_on_no_verdict_witness :
    handle_tainted_var_tail ["untainted".toList, "untainted".toList]
      ["$u".toList, "$v".toList] 3 5 [] [] = .ok ([], []) :=
  handle_tainted_var_silent_on_no_verdict
    ["untainted".toList, "untainted".toList] ["$u".toList, "$v".toList]
    3 5 [] [] (by decide)
